import Mathlib

/-!
Shallow embedding of the content pipeline of `main.go`: front-matter
splitting (`parseMarkdownFile`), metadata extraction (`parseMetaData`),
corpus loading (`loadMarkdownPosts`), navigation-index construction
(`loadSidebarData`), and heading-anchor generation (`createSidebarLinks`,
`sanitizeHeaderForID`).

Strings are modelled as `List Char` (Go strings hold UTF-8 text; every
operation used here is rune-compatible).  The external collaborators the
spec excludes — the gin HTTP layer and the gomarkdown renderer
(`mdToHTML`) — are not modelled; the `Content` field they produce is
omitted from the page record.
-/

/-- Failure taxonomy of the load pipeline: `parseMarkdownFile` fails with
`malformedDocument` (the Go error "invalid markdown format"), and reading a
directory entry as a file can fail with `fileUnreadable`. -/
inductive LoadError where
  | malformedDocument
  | fileUnreadable
deriving DecidableEq

/-- One parsed content page, Go struct `BlogPost`.  The `Content` field
(HTML produced by the external gomarkdown renderer) is omitted: the spec
treats that renderer as a black-box collaborator. -/
structure BlogPost where
  Title : List Char
  Slug : List Char
  Parent : List Char
  Description : List Char
  Order : Int
  Headers : List (List Char)
  MetaDescription : List Char
  MetaPropertyTitle : List Char
  MetaPropertyDescription : List Char
  MetaOgURL : List Char
deriving DecidableEq

/-- Go struct `Category`: a sidebar group of pages. -/
structure Category where
  Name : List Char
  Pages : List BlogPost
  Order : Int
deriving DecidableEq

/-- RE2 class `\w`: ASCII letters, digits and underscore. -/
def isWordChar (c : Char) : Bool :=
  c.isAlphanum || c == '_'

/-- RE2 class `\s`: space, tab, newline, form feed, carriage return. -/
def isGoSpace (c : Char) : Bool :=
  c == ' ' || c == '\t' || c == '\n' || c == '\x0c' || c == '\r'

/-- One attempted match of Go pattern `(?m)^(\w+):\s*(.+)` at a line start,
with RE2 leftmost-first semantics: the key is the maximal run of word
characters followed by a colon; `\s*` greedily takes the maximal whitespace
run (which may cross line ends, since `\s` matches a newline) and backs off
only as far as `.+` — one or more non-newline characters, greedy — needs.
Returns the captured (key, value) pair and the unconsumed remainder. -/
def matchKV (s : List Char) : Option ((List Char × List Char) × List Char) :=
  match s.dropWhile isWordChar with
  | [] => none
  | d :: s2 =>
    if d = ':' ∧ s.takeWhile isWordChar ≠ [] then
      match s2.dropWhile isGoSpace with
      | t :: ts =>
        some ((s.takeWhile isWordChar, (t :: ts).takeWhile (fun c => c != '\n')),
          (t :: ts).dropWhile (fun c => c != '\n'))
      | [] =>
        match (s2.takeWhile isGoSpace).reverse.dropWhile (fun c => c == '\n') with
        | c :: _ =>
          some ((s.takeWhile isWordChar, [c]),
            ((s2.takeWhile isGoSpace).reverse.takeWhile (fun c => c == '\n')).reverse)
        | [] => none
    else none

/-- One attempted match of Go pattern `(?m)^##\s+(.*)` at a line start:
two hash marks, one or more whitespace characters (greedy, may cross line
ends), then the greedy and possibly empty run of non-newline characters as
the captured heading text.  Returns the capture and the remainder. -/
def matchH (s : List Char) : Option (List Char × List Char) :=
  match s with
  | '#' :: '#' :: s2 =>
    match s2.takeWhile isGoSpace with
    | [] => none
    | _ :: _ =>
      some ((s2.dropWhile isGoSpace).takeWhile (fun c => c != '\n'),
        (s2.dropWhile isGoSpace).dropWhile (fun c => c != '\n'))
  | _ => none

/-- Scan a text position by position, attempting the matcher `m` at every
line start (the positions `(?m)^` anchors to) and resuming after the end of
each match, as `Regexp.FindAllStringSubmatch` does for the patterns above.
`fuel` only bounds the recursion; callers pass the text length plus one,
which always suffices because every step consumes at least one character. -/
def scanAt {α : Type} (m : List Char → Option (α × List Char)) :
    Nat → List Char → Bool → List α
  | 0, _, _ => []
  | _ + 1, [], _ => []
  | fuel + 1, c :: rest, atStart =>
    if atStart then
      match m (c :: rest) with
      | some (a, r) => a :: scanAt m fuel r false
      | none => scanAt m fuel rest (c == '\n')
    else scanAt m fuel rest (c == '\n')

/-- All (key, value) captures of `(?m)^(\w+):\s*(.+)` over the metadata
block, in match order — the regex extraction inside Go `parseMetaData`. -/
def parseMetaEntries (metadata : List Char) : List (List Char × List Char) :=
  scanAt matchKV (metadata.length + 1) metadata true

/-- All captures of `(?m)^##\s+(.*)` over the body — Go `extractHeaders`. -/
def extractHeaders (content : List Char) : List (List Char) :=
  scanAt matchH (content.length + 1) content true

/-- Assignment `m[k] = v` on an association-list model of a Go
`map[string]string`: an existing key is overwritten in place, a new key is
appended. -/
def goInsert (m : List (List Char × List Char)) (k v : List Char) :
    List (List Char × List Char) :=
  if m.any (fun e => e.1 == k) then
    m.map (fun e => if e.1 == k then (k, v) else e)
  else m ++ [(k, v)]

/-- The `metaDataMap` built by Go `parseMetaData`: the capture list is
folded into the map, so a duplicated key keeps its last value. -/
def buildMap (entries : List (List Char × List Char)) :
    List (List Char × List Char) :=
  entries.foldl (fun m e => goInsert m e.1 e.2) []

/-- Go map read `m[k]` with the string zero value for a missing key. -/
def mapGetD (m : List (List Char × List Char)) (k : List Char) : List Char :=
  match m.find? (fun e => e.1 == k) with
  | some e => e.2
  | none => []

/-- Numeric value of a nonempty all-digit string, else `none`. -/
def digitsVal : List Char → Option Nat
  | [] => none
  | s => digitsValGo s 0
where
  digitsValGo : List Char → Nat → Option Nat
    | [], acc => some acc
    | c :: cs, acc =>
      if c.isDigit then digitsValGo cs (acc * 10 + (c.toNat - 48)) else none

/-- Model of Go `strconv.Atoi`: an optional sign, then one or more digits
consuming the whole string; values outside the 64-bit integer range are
rejected (Go reports `ErrRange`, which the caller treats as any error). -/
def goAtoi (s : List Char) : Option Int :=
  match s with
  | '+' :: rest => (digitsVal rest).bind (fun n =>
      if (n : Int) ≤ 9223372036854775807 then some (n : Int) else none)
  | '-' :: rest => (digitsVal rest).bind (fun n =>
      if (n : Int) ≤ 9223372036854775808 then some (-(n : Int)) else none)
  | _ => (digitsVal s).bind (fun n =>
      if (n : Int) ≤ 9223372036854775807 then some (n : Int) else none)

/-- The nine named results of Go `parseMetaData`. -/
structure MetaFields where
  title : List Char
  slug : List Char
  parent : List Char
  description : List Char
  order : Int
  metaDescription : List Char
  metaPropertyTitle : List Char
  metaPropertyDescription : List Char
  metaOgURL : List Char
deriving DecidableEq

/-- Go `parseMetaData`: regex extraction into `metaDataMap`, verbatim field
reads (missing key gives the empty string), and `strconv.Atoi` on the
`Order` value with the silent `9999` fallback on any error. -/
def parseMetaData (metadata : List Char) : MetaFields :=
  let m := buildMap (parseMetaEntries metadata)
  { title := mapGetD m "Title".toList
    slug := mapGetD m "Slug".toList
    parent := mapGetD m "Parent".toList
    description := mapGetD m "Description".toList
    order := match goAtoi (mapGetD m "Order".toList) with
      | some n => n
      | none => 9999
    metaDescription := mapGetD m "MetaDescription".toList
    metaPropertyTitle := mapGetD m "MetaPropertyTitle".toList
    metaPropertyDescription := mapGetD m "MetaPropertyDescription".toList
    metaOgURL := mapGetD m "MetaOgURL".toList }

/-- Removal of every carriage return, Go `strings.ReplaceAll(s, "\r", "")`. -/
def stripCR (s : List Char) : List Char :=
  s.filter (fun c => c != '\r')

/-- The front-matter delimiter token. -/
def delim : List Char := "---".toList

/-- If `sep` is a prefix of `s`, the remainder of `s` after it. -/
def dropTokenPre : List Char → List Char → Option (List Char)
  | [], s => some s
  | _ :: _, [] => none
  | d :: ds, c :: cs => if c = d then dropTokenPre ds cs else none

/-- Split at the first occurrence of `sep`, Go
`strings.SplitN(s, sep, 2)`: `some (before, after)` when `sep` occurs,
`none` when it does not (Go then returns a single-element slice). -/
def splitFirst (sep : List Char) : List Char → Option (List Char × List Char)
  | [] =>
    match dropTokenPre sep [] with
    | some r => some ([], r)
    | none => none
  | c :: cs =>
    match dropTokenPre sep (c :: cs) with
    | some r => some ([], r)
    | none =>
      match splitFirst sep cs with
      | some pq => some (c :: pq.1, pq.2)
      | none => none

/-- The two blocks produced by Go `parseMarkdownFile` before field
extraction: split on the first `---`, then strip carriage returns from the
metadata block and from the body block. -/
def parseBlocks (content : List Char) : Option (List Char × List Char) :=
  match splitFirst delim content with
  | none => none
  | some pq => some (stripCR pq.1, stripCR pq.2)

/-- Go `parseMarkdownFile`: fails with `malformedDocument` when the content
does not split into two parts on `---`; otherwise builds the page record
from the metadata fields and the extracted headings.  The rendered-HTML
field is omitted (external renderer). -/
def parseMarkdownFile (content : List Char) : Except LoadError BlogPost :=
  match parseBlocks content with
  | none => .error .malformedDocument
  | some (metadata, mdContent) =>
    let f := parseMetaData metadata
    .ok { Title := f.title
          Slug := f.slug
          Parent := f.parent
          Description := f.description
          Order := f.order
          Headers := extractHeaders mdContent
          MetaDescription := f.metaDescription
          MetaPropertyTitle := f.metaPropertyTitle
          MetaPropertyDescription := f.metaPropertyDescription
          MetaOgURL := f.metaOgURL }

/-- Go `strings.HasSuffix`. -/
def goHasSuffix (s suffixTok : List Char) : Bool :=
  (dropTokenPre suffixTok.reverse s.reverse).isSome

/-- The content-file extension checked by `loadMarkdownPosts`. -/
def mdExt : List Char := ".md".toList

/-- One directory entry as `loadMarkdownPosts` sees it: its name and the
result of reading it as a file.  A subdirectory or unreadable file carries
`Except.error fileUnreadable`. -/
structure DirEntry where
  name : List Char
  content : Except LoadError (List Char)

/-- Go `loadMarkdownPosts` over an already-listed directory: entries whose
name ends in `.md` are read and parsed in order; the first read or parse
error aborts the whole load; every other entry is skipped. -/
def loadMarkdownPosts : List DirEntry → Except LoadError (List BlogPost)
  | [] => .ok []
  | f :: rest =>
    if goHasSuffix f.name mdExt then
      match f.content with
      | .error e => .error e
      | .ok content =>
        match parseMarkdownFile content with
        | .error e => .error e
        | .ok post =>
          match loadMarkdownPosts rest with
          | .error e => .error e
          | .ok posts => .ok (post :: posts)
    else loadMarkdownPosts rest

/-- The body of the grouping loop in Go `loadSidebarData`: a page with an
empty `Parent` is dropped; otherwise the page joins its category, creating
the category with the `Order` of the page on first sight (the map is modelled as
an association list in first-seen key order; looking up and updating a key
is deterministic, only iteration order over the finished map is not). -/
def addPost (cats : List Category) (post : BlogPost) : List Category :=
  if post.Parent = [] then cats
  else if cats.any (fun c => c.Name == post.Parent) then
    cats.map (fun c =>
      if c.Name == post.Parent then
        { c with Pages := c.Pages ++ [post] }
      else c)
  else cats ++ [{ Name := post.Parent, Pages := [post], Order := post.Order }]

/-- The finished `categoriesMap` of Go `loadSidebarData`, in first-seen
key order. -/
def groupPosts (posts : List BlogPost) : List Category :=
  posts.foldl addPost []

/-- The possible results of Go `loadSidebarData` on a loaded corpus.  The
Go code converts `categoriesMap` to a slice by ranging over the map — an
iteration whose order the language leaves unspecified — and then sorts it
with `sort.Slice` on `Order`, which is not guaranteed to be stable.  The
output is therefore modelled relationally: any permutation of the grouped
categories that is nondecreasing in `Order` is an admissible outcome. -/
def SidebarOutcome (posts : List BlogPost) (cats : List Category) : Prop :=
  List.Perm cats (groupPosts posts) ∧
    cats.Sorted (fun a b => a.Order ≤ b.Order)

/-- Go `sanitizeHeaderForID`, lowercasing step: `strings.ToLower`,
modelled on the ASCII range (the later strip keeps ASCII only). -/
def goToLower (c : Char) : Char :=
  if 65 ≤ c.toNat ∧ c.toNat ≤ 90 then Char.ofNat (c.toNat + 32) else c

/-- The character class kept by the strip regex `[^a-z0-9\-]` of
`sanitizeHeaderForID`. -/
def allowedID (c : Char) : Bool :=
  decide (97 ≤ c.toNat ∧ c.toNat ≤ 122) ||
    decide (48 ≤ c.toNat ∧ c.toNat ≤ 57) || c == '-'

/-- Go `sanitizeHeaderForID`: lowercase, replace each space with a hyphen,
then strip every character that is not a lowercase ASCII letter, digit or
hyphen. -/
def sanitizeHeaderForID (header : List Char) : List Char :=
  ((header.map goToLower).map (fun c => if c == ' ' then '-' else c)).filter
    allowedID

/-- One `<li>` link of Go `createSidebarLinks`, the `fmt.Sprintf` line. -/
def linkFor (header : List Char) : List Char :=
  "<li><a href=\"#".toList ++ sanitizeHeaderForID header ++
    "\">".toList ++ header ++ "</a></li>".toList

/-- Go `createSidebarLinks`: the links accumulated over the headings by
string concatenation. -/
def createSidebarLinks (headers : List (List Char)) : List Char :=
  headers.foldl (fun acc h => acc ++ linkFor h) []

/-- Prepend a character to the first of a list of lines. -/
def consToHead (c : Char) : List (List Char) → List (List Char)
  | [] => [[c]]
  | l :: ls => (c :: l) :: ls

/-- The lines of a text, split on newline characters. -/
def linesOf : List Char → List (List Char)
  | [] => [[]]
  | c :: rest =>
    if c = '\n' then [] :: linesOf rest
    else consToHead c (linesOf rest)

/-- A line on which the claimed line-local reading of the metadata pattern
agrees with the multiline regex: if the line has the shape
`word-characters ':' remainder`, its remainder must contain a
non-whitespace character, so that `\s*` cannot cross the line end. -/
def goodLine (l : List Char) : Bool :=
  match l.dropWhile isWordChar with
  | [] => true
  | d :: r =>
    if d = ':' then
      (l.takeWhile isWordChar).isEmpty || r.any (fun c => !(isGoSpace c))
    else true

/-- Whitespace trimmed from both ends. -/
def trimWS (s : List Char) : List Char :=
  ((s.dropWhile isGoSpace).reverse.dropWhile isGoSpace).reverse

/-- The claimed line-oriented reading of metadata extraction: a line
matching `^(\w+):\s*(.+)` on its own contributes the key before the colon
and the trimmed remainder of that same line; other lines contribute
nothing. -/
def specLineMatch (l : List Char) : Option (List Char × List Char) :=
  match l.dropWhile isWordChar with
  | [] => none
  | d :: r =>
    if d = ':' ∧ l.takeWhile isWordChar ≠ [] ∧ r ≠ [] then
      some (l.takeWhile isWordChar, trimWS r)
    else none

/-- Metadata extraction as the claim states it: line-oriented. -/
def specMetaEntries (metadata : List Char) : List (List Char × List Char) :=
  (linesOf metadata).filterMap specLineMatch

/-- The last value bound to a key in a capture list, with the string zero
value when the key never occurs — the claimed duplicate-key policy. -/
def lastValD (entries : List (List Char × List Char)) (k : List Char) :
    List Char :=
  match (entries.filter (fun e => e.1 == k)).getLast? with
  | some e => e.2
  | none => []

/-- Reading and parsing of a single directory entry. -/
def processEntry (f : DirEntry) : Except LoadError BlogPost :=
  match f.content with
  | .error e => .error e
  | .ok content => parseMarkdownFile content

/-- Fail-fast sequential processing of a list of directory entries with no
eligibility check — the claimed behaviour of `loadMarkdownPosts` on exactly
the `.md` entries. -/
def processAll : List DirEntry → Except LoadError (List BlogPost)
  | [] => .ok []
  | f :: rest =>
    match processEntry f with
    | .error e => .error e
    | .ok post =>
      match processAll rest with
      | .error e => .error e
      | .ok posts => .ok (post :: posts)

/-- A page record with every field empty, for building small corpora. -/
def emptyPost : BlogPost :=
  { Title := [], Slug := [], Parent := [], Description := [], Order := 0,
    Headers := [], MetaDescription := [], MetaPropertyTitle := [],
    MetaPropertyDescription := [], MetaOgURL := [] }

/-- First page of the spec example corpus: category `A`, rank 5. -/
def pageA : BlogPost := { emptyPost with Parent := "A".toList, Order := 5 }

/-- Second page of the spec example corpus: category `B`, rank 1. -/
def pageB : BlogPost := { emptyPost with Parent := "B".toList, Order := 1 }

/-- Third page of the spec example corpus: category `C`, rank 5. -/
def pageC : BlogPost := { emptyPost with Parent := "C".toList, Order := 5 }

/-- Category `A` as grouped from the example corpus. -/
def catA : Category := { Name := "A".toList, Pages := [pageA], Order := 5 }

/-- Category `B` as grouped from the example corpus. -/
def catB : Category := { Name := "B".toList, Pages := [pageB], Order := 1 }

/-- Category `C` as grouped from the example corpus. -/
def catC : Category := { Name := "C".toList, Pages := [pageC], Order := 5 }

/-- Page P1 of the first-write-wins example: category `Guides`, rank 2. -/
def guidesFirst : BlogPost :=
  { emptyPost with Parent := "Guides".toList, Order := 2 }

/-- Page P2 of the first-write-wins example: category `Guides`, rank 5. -/
def guidesSecond : BlogPost :=
  { emptyPost with Parent := "Guides".toList, Order := 5 }

/-- The single category grouped from the two `Guides` pages. -/
def guidesCat : Category :=
  { Name := "Guides".toList, Pages := [guidesFirst, guidesSecond], Order := 2 }

/-- A directory entry holding the malformed example document of the spec. -/
def demoBadFile : DirEntry :=
  ⟨"post.md".toList, .ok "Title: X\nNo delimiter here".toList⟩

/-! ## Heading-anchor generation: claims C8 and C9 -/

theorem map_id_of_mem {α : Type} {f : α → α} :
    ∀ {l : List α}, (∀ a ∈ l, f a = a) → l.map f = l := by
  intro l h
  induction l with
  | nil => rfl
  | cons a l ih =>
    simp only [List.map_cons]
    rw [h a (by simp), ih (fun b hb => h b (by simp [hb]))]

theorem goToLower_of_allowed {c : Char} (h : allowedID c = true) :
    goToLower c = c := by
  have hrange : ((97 ≤ c.toNat ∧ c.toNat ≤ 122) ∨ (48 ≤ c.toNat ∧ c.toNat ≤ 57)) ∨
      c = '-' := by
    simpa [allowedID, Bool.or_eq_true, decide_eq_true_eq] using h
  unfold goToLower
  rw [if_neg]
  rcases hrange with (h1 | h1) | h1
  · omega
  · omega
  · subst h1; decide

theorem space_subst_of_allowed {c : Char} (h : allowedID c = true) :
    (if c == ' ' then '-' else c) = c := by
  rw [if_neg]
  intro hsp
  rw [show c = ' ' from by simpa using hsp] at h
  simp [allowedID] at h

theorem mem_sanitize_allowed {s : List Char} {c : Char}
    (h : c ∈ sanitizeHeaderForID s) : allowedID c = true :=
  (List.mem_filter.mp h).2

/-- C9: `sanitizeHeaderForID` — lowercase, replace each space with a hyphen,
strip every character that is not a lowercase letter, digit or hyphen — is
idempotent: applying it to its own output returns that output unchanged. -/
theorem c9_sanitize_idempotent (s : List Char) :
    sanitizeHeaderForID (sanitizeHeaderForID s) = sanitizeHeaderForID s := by
  have hall : ∀ c ∈ sanitizeHeaderForID s, allowedID c = true :=
    fun c hc => mem_sanitize_allowed hc
  have h1 : (sanitizeHeaderForID s).map goToLower = sanitizeHeaderForID s :=
    map_id_of_mem (fun c hc => goToLower_of_allowed (hall c hc))
  have h2 : (sanitizeHeaderForID s).map (fun c => if c == ' ' then '-' else c) =
      sanitizeHeaderForID s :=
    map_id_of_mem (fun c hc => space_subst_of_allowed (hall c hc))
  conv_lhs => rw [sanitizeHeaderForID]
  rw [h1, h2]
  exact List.filter_eq_self.mpr hall

theorem createSidebarLinks_acc (headers : List (List Char)) :
    ∀ acc, headers.foldl (fun acc h => acc ++ linkFor h) acc =
      acc ++ (headers.map linkFor).flatten := by
  induction headers with
  | nil => intro acc; simp
  | cons h hs ih =>
    intro acc
    simp only [List.foldl_cons, List.map_cons, List.flatten_cons, ih,
      List.append_assoc]

/-- C8: `createSidebarLinks` produces exactly one link per heading, in
order — the output is the concatenation of `linkFor` over the headings,
where each link carries the anchor `sanitizeHeaderForID` of its heading —
and two headings that sanitize to the same ID, such as `API Design!` and
`API Design?`, both yield the duplicate anchor `api-design` rather than an
error. -/
theorem c8_one_link_per_heading :
    (∀ headers : List (List Char),
      createSidebarLinks headers = (headers.map linkFor).flatten) ∧
    sanitizeHeaderForID "API Design!".toList = "api-design".toList ∧
    sanitizeHeaderForID "API Design?".toList = "api-design".toList := by
  refine ⟨fun headers => ?_, by decide, by decide⟩
  simpa using createSidebarLinks_acc headers []


/-! ## Front-matter splitting: claims C2, C5, C10 -/

theorem dropTokenPre_eq_append {sep : List Char} :
    ∀ {s r : List Char}, dropTokenPre sep s = some r → s = sep ++ r := by
  induction sep with
  | nil =>
    intro s r h
    simp only [dropTokenPre, Option.some.injEq] at h
    simp [h]
  | cons d ds ih =>
    intro s r h
    cases s with
    | nil => simp [dropTokenPre] at h
    | cons c cs =>
      by_cases hc : c = d
      · subst hc
        simp only [dropTokenPre, if_pos rfl] at h
        simpa using ih h
      · simp [dropTokenPre, hc] at h

theorem dropTokenPre_append (sep r : List Char) :
    dropTokenPre sep (sep ++ r) = some r := by
  induction sep with
  | nil => rfl
  | cons d ds ih => simpa [dropTokenPre] using ih

theorem splitFirst_eq_append {sep : List Char} :
    ∀ {s p q : List Char}, splitFirst sep s = some (p, q) → s = p ++ sep ++ q := by
  intro s
  induction s with
  | nil =>
    intro p q h
    simp only [splitFirst] at h
    cases hd : dropTokenPre sep [] with
    | none => rw [hd] at h; cases h
    | some r =>
      rw [hd] at h
      cases h
      simpa using dropTokenPre_eq_append hd
  | cons c cs ih =>
    intro p q h
    simp only [splitFirst] at h
    cases hd : dropTokenPre sep (c :: cs) with
    | some r =>
      rw [hd] at h
      cases h
      simpa using dropTokenPre_eq_append hd
    | none =>
      rw [hd] at h
      cases hs : splitFirst sep cs with
      | none => rw [hs] at h; cases h
      | some pq =>
        obtain ⟨p1, q1⟩ := pq
        rw [hs] at h
        cases h
        have h2 : cs = p1 ++ sep ++ q1 := ih hs
        simp [h2, List.append_assoc]

theorem splitFirst_isSome_of_occurs {sep : List Char} :
    ∀ {s : List Char}, sep <:+: s → (splitFirst sep s).isSome = true := by
  intro s
  induction s with
  | nil =>
    intro h
    have hsep : sep = [] := List.sublist_nil.mp h.sublist
    subst hsep
    simp [splitFirst, dropTokenPre]
  | cons c cs ih =>
    intro h
    rcases List.infix_cons_iff.mp h with hpre | hinf
    · obtain ⟨t, ht⟩ := hpre
      simp only [splitFirst]
      rw [← ht, dropTokenPre_append]
      simp
    · simp only [splitFirst]
      cases hd : dropTokenPre sep (c :: cs) with
      | some r => simp
      | none =>
        have hval := ih hinf
        cases hs : splitFirst sep cs with
        | none => rw [hs] at hval; simp at hval
        | some pq => simp

theorem occurs_of_splitFirst_isSome {sep : List Char} :
    ∀ {s : List Char}, (splitFirst sep s).isSome = true → sep <:+: s := by
  intro s
  induction s with
  | nil =>
    intro h
    simp only [splitFirst] at h
    cases hd : dropTokenPre sep [] with
    | none => rw [hd] at h; simp at h
    | some r =>
      have : ([] : List Char) = sep ++ r := dropTokenPre_eq_append hd
      have hsep : sep = [] := by
        cases sep with
        | nil => rfl
        | cons a as => simp at this
      simp [hsep]
  | cons c cs ih =>
    intro h
    simp only [splitFirst] at h
    cases hd : dropTokenPre sep (c :: cs) with
    | some r =>
      exact ⟨[], r, by simpa using (dropTokenPre_eq_append hd).symm⟩
    | none =>
      rw [hd] at h
      cases hs : splitFirst sep cs with
      | none => rw [hs] at h; simp at h
      | some pq =>
        exact List.infix_cons (ih (by rw [hs]; rfl))

theorem splitFirst_delim_prefix (r : List Char) :
    splitFirst delim (delim ++ r) = some ([], r) := by
  have h : delim ++ r = '-' :: ('-' :: '-' :: r) := rfl
  rw [h]
  simp only [splitFirst]
  have hd : dropTokenPre delim ('-' :: ('-' :: '-' :: r)) = some r :=
    dropTokenPre_append delim r
  rw [hd]

/-- C5: for every input containing the `---` delimiter, `parseBlocks`
succeeds with exactly two blocks whose concatenation around the delimiter
equals the input with all carriage returns stripped, and `parseMarkdownFile`
succeeds on that input. -/
theorem c5_split_round_trip (content : List Char) (h : delim <:+: content) :
    ∃ m b, parseBlocks content = some (m, b) ∧
      m ++ delim ++ b = stripCR content ∧
      ∃ post, parseMarkdownFile content = Except.ok post := by
  have hsome := splitFirst_isSome_of_occurs h
  cases hs : splitFirst delim content with
  | none => rw [hs] at hsome; simp at hsome
  | some pq =>
    obtain ⟨p, q⟩ := pq
    have hdecomp : content = p ++ delim ++ q := splitFirst_eq_append hs
    refine ⟨stripCR p, stripCR q, ?_, ?_, ?_⟩
    · simp [parseBlocks, hs]
    · rw [hdecomp]
      simp only [stripCR, List.filter_append]
      rw [show List.filter (fun c => c != '\r') delim = delim from by decide]
    · have hb : parseBlocks content = some (stripCR p, stripCR q) := by
        simp [parseBlocks, hs]
      cases hk : parseMarkdownFile content with
      | ok post => exact ⟨post, rfl⟩
      | error e =>
        simp only [parseMarkdownFile, hb] at hk
        cases hk

theorem c5_witness : delim <:+: "a\r\n---\nb".toList ∧
    ∃ m b, parseBlocks "a\r\n---\nb".toList = some (m, b) ∧
      m ++ delim ++ b = stripCR "a\r\n---\nb".toList ∧
      ∃ post, parseMarkdownFile "a\r\n---\nb".toList = Except.ok post :=
  ⟨by decide, c5_split_round_trip ("a\r\n---\nb".toList) (by decide)⟩

/-- C2: `parseMarkdownFile` fails, and fails with `malformedDocument`,
exactly when the raw content does not contain the `---` delimiter; and
whenever any `.md` entry of the directory fails to parse, the whole
`loadMarkdownPosts` run returns an error and hence no pages. -/
theorem c2_malformed_abort :
    (∀ content : List Char,
      parseMarkdownFile content = Except.error LoadError.malformedDocument ↔
        ¬ delim <:+: content) ∧
    (∀ (files : List DirEntry) (f : DirEntry), f ∈ files →
      goHasSuffix f.name mdExt = true →
      (∃ c, f.content = Except.ok c ∧
        ∃ e, parseMarkdownFile c = Except.error e) →
      ∃ e, loadMarkdownPosts files = Except.error e) := by
  constructor
  · intro content
    constructor
    · intro herr hinf
      have hsome := splitFirst_isSome_of_occurs hinf
      cases hs : splitFirst delim content with
      | none => rw [hs] at hsome; simp at hsome
      | some pq =>
        have hb : parseBlocks content = some (stripCR pq.1, stripCR pq.2) := by
          simp [parseBlocks, hs]
        simp only [parseMarkdownFile, hb] at herr
        cases herr
    · intro hni
      cases hs : splitFirst delim content with
      | some pq =>
        exact absurd (occurs_of_splitFirst_isSome (by rw [hs]; rfl)) hni
      | none =>
        have hb : parseBlocks content = none := by simp [parseBlocks, hs]
        simp [parseMarkdownFile, hb]
  · intro files
    induction files with
    | nil => intro f hf; simp at hf
    | cons g rest ih =>
      intro f hf hsuf hc
      rcases List.mem_cons.mp hf with rfl | hmem
      · obtain ⟨c, hcontent, e0, hparse⟩ := hc
        exact ⟨e0, by simp [loadMarkdownPosts, hsuf, hcontent, hparse]⟩
      · obtain ⟨e1, he1⟩ := ih f hmem hsuf hc
        by_cases hg : goHasSuffix g.name mdExt = true
        · cases hgc : g.content with
          | error e2 => exact ⟨e2, by simp [loadMarkdownPosts, hg, hgc]⟩
          | ok gc =>
            cases hgp : parseMarkdownFile gc with
            | error e2 => exact ⟨e2, by simp [loadMarkdownPosts, hg, hgc, hgp]⟩
            | ok gpost => exact ⟨e1, by simp [loadMarkdownPosts, hg, hgc, hgp, he1]⟩
        · exact ⟨e1, by simp [loadMarkdownPosts, hg, he1]⟩

theorem c2_witness :
    demoBadFile ∈ [demoBadFile] ∧
    ∃ e, loadMarkdownPosts [demoBadFile] = Except.error e :=
  ⟨by simp, c2_malformed_abort.2 [demoBadFile] demoBadFile (by simp) (by decide)
    ⟨"Title: X\nNo delimiter here".toList, rfl,
      LoadError.malformedDocument, by rfl⟩⟩

/-- C10: a document whose raw content begins with the `---` delimiter
parses successfully into a page whose string metadata fields are all empty
and whose rank is the fallback 9999. -/
theorem c10_empty_front_matter (content : List Char) (h : delim <+: content) :
    ∃ post, parseMarkdownFile content = Except.ok post ∧
      post.Title = [] ∧ post.Slug = [] ∧ post.Parent = [] ∧
      post.Description = [] ∧ post.MetaDescription = [] ∧
      post.MetaPropertyTitle = [] ∧ post.MetaPropertyDescription = [] ∧
      post.MetaOgURL = [] ∧ post.Order = 9999 := by
  obtain ⟨rest, hr⟩ := h
  subst hr
  have hsp := splitFirst_delim_prefix rest
  have hb : parseBlocks (delim ++ rest) = some ([], stripCR rest) := by
    simp [parseBlocks, hsp, stripCR]
  have hfields : parseMetaData [] =
      { title := [], slug := [], parent := [], description := [],
        order := 9999, metaDescription := [], metaPropertyTitle := [],
        metaPropertyDescription := [], metaOgURL := [] } := by decide
  cases hk : parseMarkdownFile (delim ++ rest) with
  | error e =>
    simp only [parseMarkdownFile, hb] at hk
    cases hk
  | ok post =>
    have hk2 := hk
    simp only [parseMarkdownFile, hb, hfields] at hk2
    injection hk2 with hpost
    subst hpost
    exact ⟨_, hk, rfl, rfl, rfl, rfl, rfl, rfl, rfl, rfl, rfl⟩

theorem c10_witness : delim <+: "---hello".toList ∧
    ∃ post, parseMarkdownFile "---hello".toList = Except.ok post ∧
      post.Title = [] ∧ post.Slug = [] ∧ post.Parent = [] ∧
      post.Description = [] ∧ post.MetaDescription = [] ∧
      post.MetaPropertyTitle = [] ∧ post.MetaPropertyDescription = [] ∧
      post.MetaOgURL = [] ∧ post.Order = 9999 :=
  ⟨by decide, c10_empty_front_matter "---hello".toList (by decide)⟩

/-- C7: `loadMarkdownPosts` is insensitive to every directory entry whose
name does not end in `.md` — including subdirectories, whatever their read
result — and processes exactly the `.md` entries, in order, fail-fast. -/
theorem c7_only_md_processed (files : List DirEntry) :
    loadMarkdownPosts files =
      processAll (files.filter (fun f => goHasSuffix f.name mdExt)) := by
  induction files with
  | nil => rfl
  | cons f rest ih =>
    by_cases hf : goHasSuffix f.name mdExt = true
    · cases hc : f.content with
      | error e => simp [loadMarkdownPosts, hf, List.filter_cons, processAll, processEntry, hc]
      | ok c =>
        cases hp : parseMarkdownFile c with
        | error e =>
          simp [loadMarkdownPosts, hf, List.filter_cons, processAll, processEntry, hc, hp]
        | ok post =>
          simp [loadMarkdownPosts, hf, List.filter_cons, processAll, processEntry, hc, hp, ih]
    · simp [loadMarkdownPosts, hf, List.filter_cons, ih]

/-- C6 (amended): a document whose metadata lacks a parsable `Order` value
silently gets rank 9999, and it sorts after any document whose explicit
numeric rank is less than 9999. -/
theorem c6_missing_order_rank (md1 md2 : List Char) (n : Int)
    (h1 : goAtoi (mapGetD (buildMap (parseMetaEntries md1)) "Order".toList) = none)
    (h2 : goAtoi (mapGetD (buildMap (parseMetaEntries md2)) "Order".toList) = some n)
    (hn : n < 9999) :
    (parseMetaData md1).order = 9999 ∧ (parseMetaData md2).order = n ∧
      (parseMetaData md2).order < (parseMetaData md1).order := by
  have key : ∀ md : List Char, (parseMetaData md).order =
      match goAtoi (mapGetD (buildMap (parseMetaEntries md)) "Order".toList) with
      | some n => n
      | none => 9999 := fun md => rfl
  have e1 : (parseMetaData md1).order = 9999 := by rw [key, h1]
  have e2 : (parseMetaData md2).order = n := by rw [key, h2]
  exact ⟨e1, e2, by rw [e1, e2]; exact hn⟩

theorem c6_witness :
    (parseMetaData "Title: X".toList).order = 9999 ∧
    (parseMetaData "Order: 3".toList).order = 3 ∧
    (parseMetaData "Order: 3".toList).order <
      (parseMetaData "Title: X".toList).order :=
  c6_missing_order_rank "Title: X".toList "Order: 3".toList 3
    (by decide) (by decide) (by decide)

/-- C6 counterexample: an explicit rank may be 9999 or larger — here
`Order: 10000` — and then a document missing the `Order` key (rank 9999)
does not sort after it, refuting "sorts after any document with an
explicit numeric rank". -/
theorem c6_counterexample :
    (parseMetaData "Title: X".toList).order = 9999 ∧
    (parseMetaData "Order: 10000".toList).order = 10000 ∧
    ¬ ((parseMetaData "Order: 10000".toList).order <
        (parseMetaData "Title: X".toList).order) := by
  refine ⟨by decide, by decide, by decide⟩

/-! ## Navigation index: claims C1 and C3 -/

theorem addPost_sound (seen : List BlogPost) (cats : List Category) (p : BlogPost)
    (h1 : ∀ cat ∈ cats, ∃ q,
      seen.find? (fun x => x.Parent == cat.Name) = some q ∧ cat.Order = q.Order)
    (h2 : ∀ q ∈ seen, q.Parent ≠ [] → ∃ cat ∈ cats, cat.Name = q.Parent) :
    (∀ cat ∈ addPost cats p, ∃ q,
      (seen ++ [p]).find? (fun x => x.Parent == cat.Name) = some q ∧
        cat.Order = q.Order) ∧
    (∀ q ∈ seen ++ [p], q.Parent ≠ [] →
      ∃ cat ∈ addPost cats p, cat.Name = q.Parent) := by
  unfold addPost
  by_cases hp0 : p.Parent = []
  · rw [if_pos hp0]
    constructor
    · intro cat hcat
      obtain ⟨q, hq, ho⟩ := h1 cat hcat
      exact ⟨q, by simp [List.find?_append, hq], ho⟩
    · intro q hq hqp
      rcases List.mem_append.mp hq with hq | hq
      · exact h2 q hq hqp
      · obtain rfl := List.mem_singleton.mp hq
        exact absurd hp0 hqp
  · rw [if_neg hp0]
    by_cases hex : cats.any (fun c => c.Name == p.Parent) = true
    · rw [if_pos hex]
      constructor
      · intro cat hcat
        obtain ⟨c0, hc0, hceq⟩ := List.mem_map.mp hcat
        obtain ⟨q, hq, ho⟩ := h1 c0 hc0
        have hname : cat.Name = c0.Name := by
          rw [← hceq]
          by_cases hcn : (c0.Name == p.Parent) = true <;> simp [hcn]
        have horder : cat.Order = c0.Order := by
          rw [← hceq]
          by_cases hcn : (c0.Name == p.Parent) = true <;> simp [hcn]
        exact ⟨q, by rw [hname]; simp [List.find?_append, hq], horder.trans ho⟩
      · intro q hq hqp
        rcases List.mem_append.mp hq with hq | hq
        · obtain ⟨cat, hcat, hname⟩ := h2 q hq hqp
          refine ⟨_, List.mem_map_of_mem _ hcat, ?_⟩
          have hkeep : (if cat.Name == p.Parent then
              { cat with Pages := cat.Pages ++ [p] } else cat).Name = cat.Name := by
            split <;> rfl
          exact hkeep.trans hname
        · obtain rfl := List.mem_singleton.mp hq
          obtain ⟨c0, hc0, hcn⟩ := List.any_eq_true.mp hex
          refine ⟨_, List.mem_map_of_mem _ hc0, ?_⟩
          simp only [hcn, if_true]
          simpa using hcn
    · rw [if_neg hex]
      constructor
      · intro cat hcat
        rcases List.mem_append.mp hcat with hcat | hcat
        · obtain ⟨q, hq, ho⟩ := h1 cat hcat
          exact ⟨q, by simp [List.find?_append, hq], ho⟩
        · obtain rfl := List.mem_singleton.mp hcat
          have hnone : seen.find? (fun x => x.Parent == p.Parent) = none := by
            rw [List.find?_eq_none]
            intro x hx hbx
            have hbx' : x.Parent = p.Parent := by simpa using hbx
            obtain ⟨cat0, hcat0, hname0⟩ := h2 x hx (by rw [hbx']; exact hp0)
            exact hex (List.any_eq_true.mpr
              ⟨cat0, hcat0, by simp [hname0, hbx']⟩)
          exact ⟨p, by simp [List.find?_append, hnone], rfl⟩
      · intro q hq hqp
        rcases List.mem_append.mp hq with hq | hq
        · obtain ⟨cat, hcat, hname⟩ := h2 q hq hqp
          exact ⟨cat, List.mem_append_left _ hcat, hname⟩
        · obtain rfl := List.mem_singleton.mp hq
          exact ⟨_, List.mem_append_right _ (List.mem_singleton_self _), rfl⟩

theorem groupPosts_sound :
    ∀ (new seen : List BlogPost) (cats : List Category),
    (∀ cat ∈ cats, ∃ q,
      seen.find? (fun x => x.Parent == cat.Name) = some q ∧
        cat.Order = q.Order) →
    (∀ q ∈ seen, q.Parent ≠ [] → ∃ cat ∈ cats, cat.Name = q.Parent) →
    ∀ cat ∈ new.foldl addPost cats, ∃ q,
      (seen ++ new).find? (fun x => x.Parent == cat.Name) = some q ∧
        cat.Order = q.Order := by
  intro new
  induction new with
  | nil =>
    intro seen cats h1 h2 cat hcat
    simpa using h1 cat hcat
  | cons p new' ih =>
    intro seen cats h1 h2 cat hcat
    have hstep := addPost_sound seen cats p h1 h2
    have hres := ih (seen ++ [p]) (addPost cats p) hstep.1 hstep.2 cat
      (by simpa [List.foldl_cons] using hcat)
    simpa [List.append_assoc] using hres

/-- C3: in every admissible output of `loadSidebarData`, each category
carries the rank of the first page of the corpus assigned to it;
later pages with the same category but a different rank leave it
unchanged. -/
theorem c3_category_rank_first_page (posts : List BlogPost)
    (cats : List Category) (h : SidebarOutcome posts cats)
    (cat : Category) (hc : cat ∈ cats) :
    ∃ p, posts.find? (fun q => q.Parent == cat.Name) = some p ∧
      cat.Order = p.Order := by
  have hmem : cat ∈ groupPosts posts := h.1.mem_iff.mp hc
  have hres := groupPosts_sound posts [] [] (by simp) (by simp) cat
    (by simpa [groupPosts] using hmem)
  simpa using hres

theorem c3_witness :
    SidebarOutcome [guidesFirst, guidesSecond] [guidesCat] ∧
    ∃ p, [guidesFirst, guidesSecond].find?
        (fun q => q.Parent == guidesCat.Name) = some p ∧
      guidesCat.Order = p.Order := by
  have hgroup : groupPosts [guidesFirst, guidesSecond] = [guidesCat] := by
    decide
  have hout : SidebarOutcome [guidesFirst, guidesSecond] [guidesCat] := by
    refine ⟨?_, ?_⟩
    · rw [hgroup]
    · exact List.pairwise_singleton _ _
  exact ⟨hout,
    c3_category_rank_first_page _ _ hout guidesCat (List.mem_singleton_self _)⟩

/-- C1 (code evaluated at the failing input): on the example corpus with
categories A (rank 5, first), B (rank 1), C (rank 5, after A), the claimed
unique output [B, A, C] and the differently ordered [B, C, A] are both
admissible outcomes of `loadSidebarData` — the Go map iteration order is
unspecified and `sort.Slice` is not stable, so nothing in the code pins the
relative order of the equal-rank categories A and C. -/
theorem c1_unstable_tie_order :
    SidebarOutcome [pageA, pageB, pageC] [catB, catA, catC] ∧
    SidebarOutcome [pageA, pageB, pageC] [catB, catC, catA] ∧
    ([catB, catC, catA] : List Category) ≠ [catB, catA, catC] := by
  have hgroup : groupPosts [pageA, pageB, pageC] = [catA, catB, catC] := by
    decide
  refine ⟨⟨?_, ?_⟩, ⟨?_, ?_⟩, ?_⟩
  · rw [hgroup]; decide
  · decide
  · rw [hgroup]; decide
  · decide
  · decide

/-! ## Metadata extraction: claim C4 -/

theorem matchKV_drop_nil {s : List Char} (hD : s.dropWhile isWordChar = []) :
    matchKV s = none := by
  unfold matchKV
  rw [hD]

theorem matchKV_drop_cons {s : List Char} {d : Char} {s2 : List Char}
    (hD : s.dropWhile isWordChar = d :: s2) :
    matchKV s =
      if d = ':' ∧ s.takeWhile isWordChar ≠ [] then
        match s2.dropWhile isGoSpace with
        | t :: ts =>
          some ((s.takeWhile isWordChar, (t :: ts).takeWhile (fun c => c != '\n')),
            (t :: ts).dropWhile (fun c => c != '\n'))
        | [] =>
          match (s2.takeWhile isGoSpace).reverse.dropWhile (fun c => c == '\n') with
          | c :: _ =>
            some ((s.takeWhile isWordChar, [c]),
              ((s2.takeWhile isGoSpace).reverse.takeWhile
                (fun c => c == '\n')).reverse)
          | [] => none
      else none := by
  unfold matchKV
  rw [hD]

theorem matchKV_shrink :
    ∀ {s : List Char} {kv : List Char × List Char} {r : List Char},
      matchKV s = some (kv, r) → r.length < s.length := by
  intro s kv r h
  cases hD : s.dropWhile isWordChar with
  | nil => rw [matchKV_drop_nil hD] at h; cases h
  | cons d s2 =>
    rw [matchKV_drop_cons hD] at h
    have hlen : s2.length < s.length := by
      have hsplit := congrArg List.length
        (List.takeWhile_append_dropWhile isWordChar s)
      rw [hD] at hsplit
      simp only [List.length_append, List.length_cons] at hsplit
      omega
    by_cases hc : d = ':' ∧ s.takeWhile isWordChar ≠ []
    · rw [if_pos hc] at h
      cases hT : s2.dropWhile isGoSpace with
      | cons t ts =>
        rw [hT] at h
        cases h
        have h1 : ((t :: ts).dropWhile (fun c => c != '\n')).length ≤
            (t :: ts).length := (List.dropWhile_sublist _).length_le
        have h2 : (t :: ts).length ≤ s2.length := by
          rw [← hT]; exact (List.dropWhile_sublist _).length_le
        omega
      | nil =>
        rw [hT] at h
        cases hW : (s2.takeWhile isGoSpace).reverse.dropWhile
            (fun c => c == '\n') with
        | nil => rw [hW] at h; cases h
        | cons c cs =>
          rw [hW] at h
          cases h
          have h1 : (((s2.takeWhile isGoSpace).reverse.takeWhile
              (fun c => c == '\n')).reverse).length ≤
              (s2.takeWhile isGoSpace).length := by
            rw [List.length_reverse]
            calc ((s2.takeWhile isGoSpace).reverse.takeWhile
                (fun c => c == '\n')).length
                ≤ (s2.takeWhile isGoSpace).reverse.length :=
                  (List.takeWhile_sublist _).length_le
              _ = (s2.takeWhile isGoSpace).length := List.length_reverse _
          have h2 : (s2.takeWhile isGoSpace).length ≤ s2.length :=
            (List.takeWhile_sublist _).length_le
          omega
    · rw [if_neg hc] at h; cases h

theorem scanAt_cons_false {α : Type} (m : List Char → Option (α × List Char))
    (fuel : Nat) (c : Char) (rest : List Char) :
    scanAt m (fuel + 1) (c :: rest) false = scanAt m fuel rest (c == '\n') := rfl

theorem scanAt_cons_true_some {α : Type}
    {m : List Char → Option (α × List Char)} (fuel : Nat) {c : Char}
    {rest : List Char} {a : α} {r : List Char} (hm : m (c :: rest) = some (a, r)) :
    scanAt m (fuel + 1) (c :: rest) true = a :: scanAt m fuel r false := by
  simp [scanAt, hm]

theorem scanAt_cons_true_none {α : Type}
    {m : List Char → Option (α × List Char)} (fuel : Nat) {c : Char}
    {rest : List Char} (hm : m (c :: rest) = none) :
    scanAt m (fuel + 1) (c :: rest) true = scanAt m fuel rest (c == '\n') := by
  simp [scanAt, hm]

theorem scanAt_fuel_congr {α : Type} (m : List Char → Option (α × List Char))
    (hm : ∀ {s : List Char} {a : α} {r : List Char},
      m s = some (a, r) → r.length < s.length) :
    ∀ (f1 f2 : Nat) (s : List Char) (b : Bool), s.length < f1 → s.length < f2 →
      scanAt m f1 s b = scanAt m f2 s b := by
  intro f1
  induction f1 with
  | zero => intro f2 s b h1 h2; exact absurd h1 (Nat.not_lt_zero _)
  | succ n ih =>
    intro f2 s b h1 h2
    cases f2 with
    | zero => exact absurd h2 (Nat.not_lt_zero _)
    | succ k =>
      cases s with
      | nil => rfl
      | cons c rest =>
        have hrest1 : rest.length < n := by
          simp only [List.length_cons] at h1; omega
        have hrest2 : rest.length < k := by
          simp only [List.length_cons] at h2; omega
        cases b with
        | false =>
          rw [scanAt_cons_false, scanAt_cons_false]
          exact ih k rest _ hrest1 hrest2
        | true =>
          cases hm0 : m (c :: rest) with
          | some ar =>
            obtain ⟨a, r⟩ := ar
            rw [scanAt_cons_true_some n hm0, scanAt_cons_true_some k hm0]
            have hr : r.length < (c :: rest).length := hm hm0
            simp only [List.length_cons] at hr
            exact congrArg _ (ih k r false (by omega) (by omega))
          | none =>
            rw [scanAt_cons_true_none n hm0, scanAt_cons_true_none k hm0]
            exact ih k rest _ hrest1 hrest2

theorem scanAt_no_nl_false :
    ∀ (fuel : Nat) (s : List Char), '\n' ∉ s →
      scanAt matchKV fuel s false = [] := by
  intro fuel
  induction fuel with
  | zero => intro s h; rfl
  | succ n ih =>
    intro s h
    cases s with
    | nil => rfl
    | cons c rest =>
      rw [List.mem_cons] at h
      push_neg at h
      have hc : (c == '\n') = false := beq_eq_false_iff_ne.mpr h.1.symm
      rw [scanAt_cons_false, hc]
      exact ih rest h.2

theorem scanAt_skip_line :
    ∀ (l : List Char), '\n' ∉ l → ∀ (md' : List Char) (fuel : Nat),
      (l ++ '\n' :: md').length < fuel →
      scanAt matchKV fuel (l ++ '\n' :: md') false =
        scanAt matchKV (md'.length + 1) md' true := by
  intro l
  induction l with
  | nil =>
    intro _ md' fuel hf
    cases fuel with
    | zero => exact absurd hf (Nat.not_lt_zero _)
    | succ n =>
      have hb : ('\n' == '\n') = true := rfl
      rw [List.nil_append] at hf ⊢
      rw [scanAt_cons_false, hb]
      refine scanAt_fuel_congr matchKV (fun h => matchKV_shrink h) n
        (md'.length + 1) md' true ?_ ?_
      · simp only [List.length_cons] at hf; omega
      · omega
  | cons c l' ih =>
    intro h md' fuel hf
    rw [List.mem_cons] at h
    push_neg at h
    cases fuel with
    | zero => exact absurd hf (Nat.not_lt_zero _)
    | succ n =>
      have hc : (c == '\n') = false := beq_eq_false_iff_ne.mpr h.1.symm
      rw [List.cons_append] at hf ⊢
      rw [scanAt_cons_false, hc]
      refine ih h.2 md' n ?_
      simp only [List.length_cons] at hf
      omega

theorem dropWhile_append_cons {α : Type} {p : α → Bool} {l : List α} {d : α}
    {ds : List α} (hD : l.dropWhile p = d :: ds) (ys : List α) :
    (l ++ ys).dropWhile p = d :: (ds ++ ys) := by
  rw [List.dropWhile_append, hD]
  rfl

theorem takeWhile_append_stop {α : Type} {p : α → Bool} {l : List α} {d : α}
    {ds : List α} (hD : l.dropWhile p = d :: ds) (ys : List α) :
    (l ++ ys).takeWhile p = l.takeWhile p := by
  rw [List.takeWhile_append]
  have hlen : (l.takeWhile p).length ≠ l.length := by
    have hsplit := congrArg List.length (List.takeWhile_append_dropWhile p l)
    rw [hD] at hsplit
    simp only [List.length_append, List.length_cons] at hsplit
    omega
  rw [if_neg hlen]

theorem nl_all_bne {xs : List Char} (h : '\n' ∉ xs) :
    ∀ a ∈ xs, (a != '\n') = true :=
  fun a ha => bne_iff_ne.mpr (fun he => h (he ▸ ha))

theorem nl_takeWhile {xs : List Char} (h : '\n' ∉ xs) :
    xs.takeWhile (fun c => c != '\n') = xs :=
  List.takeWhile_eq_self_iff.mpr (nl_all_bne h)

theorem nl_dropWhile {xs : List Char} (h : '\n' ∉ xs) :
    xs.dropWhile (fun c => c != '\n') = [] :=
  List.dropWhile_eq_nil_iff.mpr (nl_all_bne h)

theorem nl_takeWhile_append {xs : List Char} (h : '\n' ∉ xs) (ys : List Char) :
    (xs ++ '\n' :: ys).takeWhile (fun c => c != '\n') = xs := by
  rw [List.takeWhile_append_of_pos (nl_all_bne h)]
  rw [List.takeWhile_cons_of_neg (by simp)]
  simp

theorem nl_dropWhile_append {xs : List Char} (h : '\n' ∉ xs) (ys : List Char) :
    (xs ++ '\n' :: ys).dropWhile (fun c => c != '\n') = '\n' :: ys := by
  rw [List.dropWhile_append_of_pos (nl_all_bne h)]
  rw [List.dropWhile_cons_of_neg (by simp)]

theorem mem_of_mem_word_drop {l : List Char} {d : Char} {ds : List Char}
    (hD : l.dropWhile isWordChar = d :: ds) {x : Char} (hx : x ∈ ds) : x ∈ l := by
  have h1 : List.Sublist (l.dropWhile isWordChar) l := List.dropWhile_sublist _
  rw [hD] at h1
  exact h1.subset (List.mem_cons_of_mem d hx)

theorem goodLine_cons {l : List Char} {d : Char} {r : List Char}
    (hD : l.dropWhile isWordChar = d :: r) :
    goodLine l = if d = ':' then
      (l.takeWhile isWordChar).isEmpty || r.any (fun c => !(isGoSpace c))
    else true := by
  unfold goodLine
  rw [hD]

theorem goodLine_nonspace {l : List Char} {d : Char} {ds : List Char}
    (hD : l.dropWhile isWordChar = d :: ds) (hg : goodLine l = true)
    (hcond : d = ':' ∧ l.takeWhile isWordChar ≠ []) :
    ds.dropWhile isGoSpace ≠ [] := by
  rw [goodLine_cons hD, if_pos hcond.1] at hg
  have hne : (l.takeWhile isWordChar).isEmpty = false := by
    cases hh : l.takeWhile isWordChar with
    | nil => exact absurd hh hcond.2
    | cons a as => rfl
  rw [hne, Bool.false_or] at hg
  rw [Ne, List.dropWhile_eq_nil_iff]
  intro hall
  obtain ⟨x, hx, hxs⟩ := List.any_eq_true.mp hg
  rw [hall x hx] at hxs
  simp at hxs

theorem matchKV_space_cons {s : List Char} {d : Char} {s2 : List Char}
    {t : Char} {ts : List Char} (hD : s.dropWhile isWordChar = d :: s2)
    (hcond : d = ':' ∧ s.takeWhile isWordChar ≠ [])
    (hT : s2.dropWhile isGoSpace = t :: ts) :
    matchKV s = some ((s.takeWhile isWordChar,
      (t :: ts).takeWhile (fun c => c != '\n')),
      (t :: ts).dropWhile (fun c => c != '\n')) := by
  rw [matchKV_drop_cons hD, if_pos hcond, hT]

theorem matchKV_space_nil_some {s : List Char} {d : Char} {s2 : List Char}
    {c : Char} {cs : List Char} (hD : s.dropWhile isWordChar = d :: s2)
    (hcond : d = ':' ∧ s.takeWhile isWordChar ≠ [])
    (hT : s2.dropWhile isGoSpace = [])
    (hW : (s2.takeWhile isGoSpace).reverse.dropWhile (fun c => c == '\n') =
      c :: cs) :
    matchKV s = some ((s.takeWhile isWordChar, [c]),
      ((s2.takeWhile isGoSpace).reverse.takeWhile (fun c => c == '\n')).reverse) := by
  rw [matchKV_drop_cons hD, if_pos hcond, hT, hW]

theorem matchKV_space_nil_none {s : List Char} {d : Char} {s2 : List Char}
    (hD : s.dropWhile isWordChar = d :: s2)
    (hcond : d = ':' ∧ s.takeWhile isWordChar ≠ [])
    (hT : s2.dropWhile isGoSpace = [])
    (hW : (s2.takeWhile isGoSpace).reverse.dropWhile (fun c => c == '\n') = []) :
    matchKV s = none := by
  rw [matchKV_drop_cons hD, if_pos hcond, hT, hW]

theorem matchKV_not_shape {s : List Char} {d : Char} {s2 : List Char}
    (hD : s.dropWhile isWordChar = d :: s2)
    (hcond : ¬ (d = ':' ∧ s.takeWhile isWordChar ≠ [])) :
    matchKV s = none := by
  rw [matchKV_drop_cons hD, if_neg hcond]

theorem matchKV_line_some {l : List Char} (hnl : '\n' ∉ l)
    (hg : goodLine l = true) {kv : List Char × List Char} {r : List Char}
    (hm : matchKV l = some (kv, r)) (md' : List Char) :
    matchKV (l ++ '\n' :: md') = some (kv, '\n' :: md') := by
  cases hD : l.dropWhile isWordChar with
  | nil => rw [matchKV_drop_nil hD] at hm; cases hm
  | cons d ds =>
    by_cases hcond : d = ':' ∧ l.takeWhile isWordChar ≠ []
    · have hgood := goodLine_nonspace hD hg hcond
      cases hT : ds.dropWhile isGoSpace with
      | nil => exact absurd hT hgood
      | cons t ts =>
        have hnlt : '\n' ∉ (t :: ts) := by
          intro hmem
          exact hnl (mem_of_mem_word_drop hD
            ((List.dropWhile_sublist isGoSpace).subset (hT ▸ hmem)))
        have hloc := (matchKV_space_cons hD hcond hT).symm.trans hm
        rw [nl_takeWhile hnlt] at hloc
        cases hloc
        have hD' := dropWhile_append_cons hD ('\n' :: md')
        have hcond' : d = ':' ∧ (l ++ '\n' :: md').takeWhile isWordChar ≠ [] := by
          rw [takeWhile_append_stop hD ('\n' :: md')]
          exact hcond
        have hT' : (ds ++ '\n' :: md').dropWhile isGoSpace =
            t :: (ts ++ '\n' :: md') := dropWhile_append_cons hT ('\n' :: md')
        rw [matchKV_space_cons hD' hcond' hT']
        have hre : t :: (ts ++ '\n' :: md') = (t :: ts) ++ '\n' :: md' := rfl
        rw [hre, nl_takeWhile_append hnlt, nl_dropWhile_append hnlt,
          takeWhile_append_stop hD ('\n' :: md')]
    · rw [matchKV_not_shape hD hcond] at hm
      cases hm

theorem matchKV_line_none {l : List Char} (hnl : '\n' ∉ l)
    (hg : goodLine l = true) (hm : matchKV l = none) (md' : List Char) :
    matchKV (l ++ '\n' :: md') = none := by
  cases hD : l.dropWhile isWordChar with
  | nil =>
    have hall : ∀ a ∈ l, isWordChar a = true := List.dropWhile_eq_nil_iff.mp hD
    have hD' : (l ++ '\n' :: md').dropWhile isWordChar = '\n' :: md' := by
      rw [List.dropWhile_append_of_pos hall]
      rw [List.dropWhile_cons_of_neg (by decide)]
    refine matchKV_not_shape hD' ?_
    intro hcc
    exact absurd hcc.1 (by decide)
  | cons d ds =>
    by_cases hcond : d = ':' ∧ l.takeWhile isWordChar ≠ []
    · have hgood := goodLine_nonspace hD hg hcond
      cases hT : ds.dropWhile isGoSpace with
      | nil => exact absurd hT hgood
      | cons t ts =>
        rw [matchKV_space_cons hD hcond hT] at hm
        cases hm
    · have hcond' : ¬ (d = ':' ∧ (l ++ '\n' :: md').takeWhile isWordChar ≠ []) := by
        rw [takeWhile_append_stop hD ('\n' :: md')]
        exact hcond
      exact matchKV_not_shape (dropWhile_append_cons hD ('\n' :: md')) hcond'

theorem matchKV_no_nl_rest {l : List Char} (hnl : '\n' ∉ l)
    {kv : List Char × List Char} {r : List Char}
    (hm : matchKV l = some (kv, r)) : r = [] := by
  cases hD : l.dropWhile isWordChar with
  | nil => rw [matchKV_drop_nil hD] at hm; cases hm
  | cons d ds =>
    by_cases hcond : d = ':' ∧ l.takeWhile isWordChar ≠ []
    · cases hT : ds.dropWhile isGoSpace with
      | cons t ts =>
        have hnlt : '\n' ∉ (t :: ts) := by
          intro hmem
          exact hnl (mem_of_mem_word_drop hD
            ((List.dropWhile_sublist isGoSpace).subset (hT ▸ hmem)))
        have hloc := (matchKV_space_cons hD hcond hT).symm.trans hm
        cases hloc
        exact nl_dropWhile hnlt
      | nil =>
        cases hW : (ds.takeWhile isGoSpace).reverse.dropWhile
            (fun c => c == '\n') with
        | nil =>
          rw [matchKV_space_nil_none hD hcond hT hW] at hm
          cases hm
        | cons c cs =>
          have hloc := (matchKV_space_nil_some hD hcond hT hW).symm.trans hm
          cases hloc
          have hempty : (ds.takeWhile isGoSpace).reverse.takeWhile
              (fun c => c == '\n') = [] := by
            rw [List.eq_nil_iff_forall_not_mem]
            intro x hx
            have hx1 := List.mem_takeWhile_imp hx
            have hx2 : x ∈ (ds.takeWhile isGoSpace).reverse :=
              (List.takeWhile_sublist _).subset hx
            rw [List.mem_reverse] at hx2
            have hx3 : x ∈ ds := (List.takeWhile_sublist isGoSpace).subset hx2
            have hx4 : x = '\n' := by simpa using hx1
            exact hnl (mem_of_mem_word_drop hD (hx4 ▸ hx3))
          rw [hempty]
          rfl
    · rw [matchKV_not_shape hD hcond] at hm
      cases hm

theorem linesOf_cons {c : Char} (md : List Char) (h : ¬ c = '\n') :
    linesOf (c :: md) = consToHead c (linesOf md) := by
  rw [show linesOf (c :: md) =
    if c = '\n' then [] :: linesOf md else consToHead c (linesOf md) from rfl]
  rw [if_neg h]

theorem linesOf_no_nl {l : List Char} (h : '\n' ∉ l) : linesOf l = [l] := by
  induction l with
  | nil => rfl
  | cons c l' ih =>
    rw [List.mem_cons] at h
    push_neg at h
    rw [linesOf_cons l' (Ne.symm h.1), ih h.2]
    rfl

theorem linesOf_append {l : List Char} (h : '\n' ∉ l) (md' : List Char) :
    linesOf (l ++ '\n' :: md') = l :: linesOf md' := by
  induction l with
  | nil =>
    show linesOf ('\n' :: md') = [] :: linesOf md'
    rfl
  | cons c l' ih =>
    rw [List.mem_cons] at h
    push_neg at h
    show linesOf (c :: (l' ++ '\n' :: md')) = (c :: l') :: linesOf md'
    rw [linesOf_cons _ (Ne.symm h.1), ih h.2]
    rfl

theorem dropWhile_head_not {α : Type} {p : α → Bool} :
    ∀ {l : List α} {d : α} {ds : List α}, l.dropWhile p = d :: ds →
      p d = false := by
  intro l
  induction l with
  | nil => intro d ds h; cases h
  | cons a l' ih =>
    intro d ds h
    rw [List.dropWhile_cons] at h
    by_cases ha : p a = true
    · rw [if_pos ha] at h
      exact ih h
    · rw [if_neg ha] at h
      cases h
      simpa using ha

theorem scanKV_lines :
    ∀ (n : Nat) (md : List Char), md.length ≤ n →
      (linesOf md).all goodLine = true →
      parseMetaEntries md =
        (linesOf md).filterMap (fun l => (matchKV l).map Prod.fst) := by
  intro n
  induction n with
  | zero =>
    intro md hlen hg
    have hmd : md = [] := List.length_eq_zero.mp (Nat.le_zero.mp hlen)
    subst hmd
    rfl
  | succ n ih =>
    intro md hlen hg
    cases hDnl : md.dropWhile (fun c => c != '\n') with
    | nil =>
      have hnl : '\n' ∉ md := by
        intro hmem
        have := List.dropWhile_eq_nil_iff.mp hDnl _ hmem
        simp at this
      rw [linesOf_no_nl hnl] at hg ⊢
      cases hm : matchKV md with
      | none =>
        have hrhs : ([md] : List (List Char)).filterMap
            (fun l => (matchKV l).map Prod.fst) = [] := by
          simp [List.filterMap_cons, hm]
        rw [hrhs]
        unfold parseMetaEntries
        cases md with
        | nil => rfl
        | cons c rest =>
          rw [scanAt_cons_true_none ((c :: rest).length) hm]
          have hc : (c == '\n') = false := by
            rw [List.mem_cons] at hnl
            push_neg at hnl
            exact beq_eq_false_iff_ne.mpr hnl.1.symm
          rw [hc]
          exact scanAt_no_nl_false _ rest (by
            rw [List.mem_cons] at hnl
            push_neg at hnl
            exact hnl.2)
      | some kvr =>
        obtain ⟨kv, r⟩ := kvr
        have hr : r = [] := matchKV_no_nl_rest hnl hm
        subst hr
        have hrhs : ([md] : List (List Char)).filterMap
            (fun l => (matchKV l).map Prod.fst) = [kv] := by
          simp [List.filterMap_cons, hm]
        rw [hrhs]
        unfold parseMetaEntries
        cases md with
        | nil => rw [show matchKV ([] : List Char) = none from rfl] at hm; cases hm
        | cons c rest =>
          rw [scanAt_cons_true_some ((c :: rest).length) hm]
          rfl
    | cons c0 tail =>
      have hc0 : c0 = '\n' := by
        have hfalse := dropWhile_head_not hDnl
        simpa using hfalse
      subst hc0
      obtain ⟨L, hnlL, hmd⟩ : ∃ L, '\n' ∉ L ∧ md = L ++ '\n' :: tail := by
        refine ⟨md.takeWhile (fun c => c != '\n'), ?_, ?_⟩
        · intro hmem
          have := List.mem_takeWhile_imp hmem
          simp at this
        · conv_lhs => rw [← List.takeWhile_append_dropWhile
            (fun c => c != '\n') md]
          rw [hDnl]
      subst hmd
      rw [linesOf_append hnlL] at hg ⊢
      rw [List.all_cons, Bool.and_eq_true] at hg
      obtain ⟨hgL, hgtail⟩ := hg
      have hlentail : tail.length ≤ n := by
        simp only [List.length_append, List.length_cons] at hlen
        omega
      have ihres := ih tail hlentail hgtail
      cases hm : matchKV L with
      | some kvr =>
        obtain ⟨kv, r⟩ := kvr
        have hglobal := matchKV_line_some hnlL hgL hm tail
        have hrhs : ((L :: linesOf tail).filterMap
            (fun l => (matchKV l).map Prod.fst)) =
            kv :: (linesOf tail).filterMap (fun l => (matchKV l).map Prod.fst) := by
          simp [List.filterMap_cons, hm]
        rw [hrhs, ← ihres]
        cases L with
        | nil =>
          rw [show matchKV ([] : List Char) = none from rfl] at hm
          cases hm
        | cons a L' =>
          unfold parseMetaEntries
          rw [List.cons_append] at hglobal ⊢
          rw [scanAt_cons_true_some ((a :: (L' ++ '\n' :: tail)).length) hglobal]
          congr 1
          have hskip := scanAt_skip_line [] (by simp) tail
            ((a :: (L' ++ '\n' :: tail)).length) (by
              simp only [List.nil_append, List.length_cons, List.length_append]
              omega)
          rw [List.nil_append] at hskip
          exact hskip
      | none =>
        have hglobal := matchKV_line_none hnlL hgL hm tail
        have hrhs : ((L :: linesOf tail).filterMap
            (fun l => (matchKV l).map Prod.fst)) =
            (linesOf tail).filterMap (fun l => (matchKV l).map Prod.fst) := by
          simp [List.filterMap_cons, hm]
        rw [hrhs, ← ihres]
        cases L with
        | nil =>
          rw [List.nil_append] at hglobal ⊢
          unfold parseMetaEntries
          rw [scanAt_cons_true_none (('\n' :: tail).length) hglobal]
          rw [show ('\n' == '\n') = true from rfl]
          refine scanAt_fuel_congr matchKV (fun h => matchKV_shrink h) _ _
            tail true ?_ ?_
          · simp
          · omega
        | cons a L' =>
          unfold parseMetaEntries
          rw [List.cons_append] at hglobal ⊢
          rw [scanAt_cons_true_none ((a :: (L' ++ '\n' :: tail)).length) hglobal]
          have ha : (a == '\n') = false := by
            rw [List.mem_cons] at hnlL
            push_neg at hnlL
            exact beq_eq_false_iff_ne.mpr hnlL.1.symm
          rw [ha]
          refine scanAt_skip_line L' ?_ tail _ ?_
          · rw [List.mem_cons] at hnlL
            push_neg at hnlL
            exact hnlL.2
          · simp only [List.length_cons, List.length_append]
            omega

theorem find?_map_insert (k v : List Char) :
    ∀ m : List (List Char × List Char),
      (m.map (fun e => if e.1 == k then (k, v) else e)).find?
          (fun e => e.1 == k) =
        if m.any (fun e => e.1 == k) then some (k, v) else none := by
  intro m
  induction m with
  | nil => rfl
  | cons e m' ih =>
    by_cases he : (e.1 == k) = true
    · rw [List.map_cons, if_pos he, List.find?_cons_of_pos _ (by simp)]
      rw [List.any_cons]
      rw [he, Bool.true_or, if_pos rfl]
    · rw [List.map_cons, if_neg he, List.find?_cons_of_neg _ (by exact he), ih]
      rw [List.any_cons]
      rw [Bool.eq_false_iff.mpr he, Bool.false_or]

theorem find?_map_insert_other {k k' : List Char} (v : List Char)
    (hkk : k ≠ k') :
    ∀ m : List (List Char × List Char),
      (m.map (fun e => if e.1 == k then (k, v) else e)).find?
          (fun e => e.1 == k') =
        m.find? (fun e => e.1 == k') := by
  intro m
  induction m with
  | nil => rfl
  | cons e m' ih =>
    by_cases he : (e.1 == k) = true
    · have he' : e.1 = k := by simpa using he
      have h1 : (((k, v) : List Char × List Char).1 == k') = false :=
        beq_eq_false_iff_ne.mpr hkk
      have h2 : (e.1 == k') = false := beq_eq_false_iff_ne.mpr (he' ▸ hkk)
      rw [List.map_cons, if_pos he, List.find?_cons_of_neg _ (by simp [h1]),
        List.find?_cons_of_neg _ (by simp [h2]), ih]
    · by_cases he2 : (e.1 == k') = true
      · rw [List.map_cons, if_neg he, List.find?_cons_of_pos _ (by exact he2),
          List.find?_cons_of_pos _ (by exact he2)]
      · rw [List.map_cons, if_neg he, List.find?_cons_of_neg _ (by exact he2),
          List.find?_cons_of_neg _ (by exact he2), ih]

theorem mapGetD_goInsert_same (m : List (List Char × List Char))
    (k v : List Char) : mapGetD (goInsert m k v) k = v := by
  unfold goInsert mapGetD
  by_cases hex : m.any (fun e => e.1 == k) = true
  · rw [if_pos hex, find?_map_insert, if_pos hex]
  · rw [if_neg hex, List.find?_append]
    have hnone : m.find? (fun e => e.1 == k) = none := by
      rw [List.find?_eq_none]
      intro x hx hbx
      exact hex (List.any_eq_true.mpr ⟨x, hx, hbx⟩)
    rw [hnone, List.find?_cons_of_pos _ (by simp)]
    rfl

theorem mapGetD_goInsert_other (m : List (List Char × List Char))
    (k v k' : List Char) (hkk : k ≠ k') :
    mapGetD (goInsert m k v) k' = mapGetD m k' := by
  unfold goInsert mapGetD
  by_cases hex : m.any (fun e => e.1 == k) = true
  · rw [if_pos hex, find?_map_insert_other v hkk]
  · rw [if_neg hex, List.find?_append]
    cases hf : m.find? (fun e => e.1 == k') with
    | some e => rfl
    | none =>
      rw [List.find?_cons_of_neg _ (by simp [beq_eq_false_iff_ne, hkk]),
        List.find?_nil]
      rfl

theorem buildMap_concat (es : List (List Char × List Char))
    (e : List Char × List Char) :
    buildMap (es ++ [e]) = goInsert (buildMap es) e.1 e.2 := by
  unfold buildMap
  rw [List.foldl_append]
  rfl

theorem mapGetD_lastVal (k : List Char) :
    ∀ entries : List (List Char × List Char),
      mapGetD (buildMap entries) k = lastValD entries k := by
  intro entries
  induction entries using List.reverseRecOn with
  | nil => rfl
  | append_singleton es e ih =>
    rw [buildMap_concat]
    by_cases he : (e.1 == k) = true
    · have he' : e.1 = k := by simpa using he
      rw [he', mapGetD_goInsert_same]
      unfold lastValD
      rw [List.filter_append, List.filter_cons, if_pos he]
      simp only [List.filter_nil, List.getLast?_concat]
    · have hne : e.1 ≠ k := by simpa using he
      rw [mapGetD_goInsert_other _ _ _ _ hne, ih]
      unfold lastValD
      rw [List.filter_append, List.filter_cons, if_neg (by simp [he])]
      simp only [List.filter_nil, List.append_nil]

/-- C4 (amended): on metadata blocks whose `key:` lines each have a
remainder containing a non-whitespace character, the extraction is indeed
line-oriented — every line matching `^(\w+):\s*(.+)` contributes its key
and its remainder with leading (not trailing) whitespace stripped, and
other lines are ignored; on any block, a duplicated key keeps the value of
its last capture.  (Without the restriction, `\s*` may cross a line end and
take the value from a later line, as the counterexample shows.) -/
theorem c4_line_extraction (md : List Char)
    (h : (linesOf md).all goodLine = true) :
    parseMetaEntries md =
      (linesOf md).filterMap (fun l => (matchKV l).map Prod.fst) ∧
    ∀ k, mapGetD (buildMap (parseMetaEntries md)) k =
      lastValD (parseMetaEntries md) k :=
  ⟨scanKV_lines md.length md Nat.le.refl h,
    fun k => mapGetD_lastVal k (parseMetaEntries md)⟩

theorem c4_witness :
    (linesOf "Title: X\nOrder: 2\nTitle: Y".toList).all goodLine = true ∧
    parseMetaEntries "Title: X\nOrder: 2\nTitle: Y".toList =
      (linesOf "Title: X\nOrder: 2\nTitle: Y".toList).filterMap
        (fun l => (matchKV l).map Prod.fst) ∧
    mapGetD (buildMap (parseMetaEntries "Title: X\nOrder: 2\nTitle: Y".toList))
        "Title".toList =
      lastValD (parseMetaEntries "Title: X\nOrder: 2\nTitle: Y".toList)
        "Title".toList :=
  ⟨by decide,
    (c4_line_extraction "Title: X\nOrder: 2\nTitle: Y".toList (by decide)).1,
    (c4_line_extraction "Title: X\nOrder: 2\nTitle: Y".toList (by decide)).2
      "Title".toList⟩

/-- C4 counterexample: the claim reads the extraction line by line, but on
`Title:\n\nX` no single line matches the pattern — the line `Title:` has an
empty remainder and the line `X` has no key — yet the multiline regex lets
`\s*` cross both line ends, so the code extracts the entry
`Title ↦ X`. -/
theorem c4_counterexample :
    parseMetaEntries "Title:\n\nX".toList = [("Title".toList, "X".toList)] ∧
    specMetaEntries "Title:\n\nX".toList = [] ∧
    parseMetaEntries "Title:\n\nX".toList ≠
      specMetaEntries "Title:\n\nX".toList ∧
    (parseMetaData "Title:\n\nX".toList).title = "X".toList := by
  refine ⟨by decide, by decide, by decide, by decide⟩
